import Mathlib

/-!
Verification development for the Hugging Face model-hub scraping pipeline
(`hugging_face_scraping.py`).

The pipeline is shallowly embedded: the pure Python string / list logic is
translated into executable Lean functions, while the two external
collaborators — the HTTP fetch and the BeautifulSoup HTML parser — are
modelled as data.  A fetched page (`Markup`) carries the raw response text
together with the parser's view of it: the `class="block p-2"` model-link
elements, all anchor tags, the `class="hidden sm:block"` pagination items,
and the text of the main content region after the structural removals that
`scrape_model_cards` performs on the DOM.

Mutable Python state is passed explicitly: the per-run HTML cache is an
association list threaded through every scraping pass, paired with an
instrumentation log that records each invocation of the fetch collaborator
(the log does not influence any computed value; it only witnesses which
URLs were fetched and in which order).

Python code that can raise an uncaught exception is modelled with `Option`
(`none` = the exception escapes), and machine-level details that cannot
matter here (Python's arbitrary-precision ints) are `Int`/`Nat`.
-/

namespace HF

/-- Python's default whitespace set for `str.strip` / the regex class `\s`,
restricted to ASCII (the scraped pages' markup is ASCII where it matters). -/
def isPySpace (c : Char) : Bool :=
  c == ' ' || c == '\t' || c == '\n' || c == '\r' || c == '\x0b' || c == '\x0c'

/-- Python `str.strip()`: drop leading and trailing whitespace. -/
def pyStrip (s : String) : String :=
  ⟨((s.data.dropWhile isPySpace).reverse.dropWhile isPySpace).reverse⟩

/-- Worker for Python `str.split(sep)` with a one-character separator:
accumulates the current field (reversed) and emits it at each separator. -/
def splitAux (sep : Char) : List Char → List Char → List (List Char)
  | [], acc => [acc.reverse]
  | c :: cs, acc =>
    if c = sep then acc.reverse :: splitAux sep cs []
    else splitAux sep cs (c :: acc)

/-- Python `s.split(sep)` for a single-character separator.  Like Python's,
the result is always non-empty and keeps empty fields. -/
def pySplit (sep : Char) (s : String) : List String :=
  (splitAux sep s.data []).map (fun l => ⟨l⟩)

/-- Python `s.count(c)` for a single character. -/
def pyCount (c : Char) (s : String) : Nat :=
  s.data.count c

/-- Python `s.replace(old, "")` (every non-overlapping occurrence of `pat`
removed, scanning left to right).  `fuel` bounds the recursion; it is always
called with `fuel = l.length`, which is enough for the scan to consume the
whole list, so the `0` branch is never the final answer on those calls. -/
def removeAllFuel (pat : List Char) : Nat → List Char → List Char
  | 0, l => l
  | fuel + 1, l =>
    match l with
    | [] => []
    | c :: cs =>
      if pat ≠ [] ∧ pat.isPrefixOf (c :: cs) then
        removeAllFuel pat fuel ((c :: cs).drop pat.length)
      else
        c :: removeAllFuel pat fuel cs

/-- Python `s.replace(pat, "")`. -/
def pyRemoveAll (pat : String) (s : String) : String :=
  ⟨removeAllFuel pat.data s.data.length s.data⟩

/-- Python `str.replace('\n', '')`: newline characters removed. -/
def removeNewlines (s : String) : String :=
  ⟨s.data.filter (fun c => c ≠ '\n')⟩

/-- Value of an ASCII hex digit. -/
def hexVal (c : Char) : Option Nat :=
  if '0' ≤ c ∧ c ≤ '9' then some (c.toNat - '0'.toNat)
  else if 'a' ≤ c ∧ c ≤ 'f' then some (c.toNat - 'a'.toNat + 10)
  else if 'A' ≤ c ∧ c ≤ 'F' then some (c.toNat - 'A'.toNat + 10)
  else none

/-- `urllib.parse.unquote_plus` on the character level: `+` becomes a space
and valid `%XX` escapes are decoded (byte values taken as code points;
multi-byte UTF-8 sequences do not occur in the query strings at issue).
Invalid escapes are left untouched, as in Python. -/
def unquoteChars : List Char → List Char
  | [] => []
  | '%' :: a :: b :: rest =>
    match hexVal a, hexVal b with
    | some x, some y => Char.ofNat (16 * x + y) :: unquoteChars rest
    | _, _ => '%' :: unquoteChars (a :: b :: rest)
  | c :: rest => (if c = '+' then ' ' else c) :: unquoteChars rest

/-- `urllib.parse.unquote_plus` as a string function. -/
def unquotePlus (s : String) : String :=
  ⟨unquoteChars s.data⟩

/-- Python `str.isdigit` for ASCII decimal digits. -/
def isAsciiDigit (c : Char) : Bool :=
  '0' ≤ c && c ≤ '9'

/-- Digits-to-number accumulator. -/
def digitsToNat (l : List Char) : Nat :=
  l.foldl (fun n c => n * 10 + (c.toNat - '0'.toNat)) 0

/-- Python `int(s)`: surrounding whitespace stripped, an optional sign,
then a non-empty run of decimal digits; anything else raises `ValueError`,
modelled as `none`. -/
def pyInt (s : String) : Option Int :=
  let t := (pyStrip s).data
  let core : Option (Int × List Char) :=
    match t with
    | '+' :: r => some (1, r)
    | '-' :: r => some (-1, r)
    | r => some (1, r)
  match core with
  | some (sign, ds) =>
    if ds ≠ [] ∧ ds.all isAsciiDigit then some (sign * (digitsToNat ds : Int))
    else none
  | none => none

/-- Generic association-list lookup (the model of a Python `dict`). -/
def alookup {α : Type} : List (String × α) → String → Option α
  | [], _ => none
  | (k, v) :: rest, key => if k = key then some v else alookup rest key

/-- `urlparse(href).query`: the fragment (everything from the first `#`) is
split off first, then the query is what follows the first `?`. -/
def urlQuery (href : String) : String :=
  let beforeFrag := href.data.takeWhile (fun c => c ≠ '#')
  let rest := (beforeFrag.dropWhile (fun c => c ≠ '?'))
  match rest with
  | [] => ""
  | _ :: q => ⟨q⟩

/-- One field of a query string, as `urllib.parse.parse_qsl` treats it with
the default `keep_blank_values=False`: a field without `=` or with an empty
value is dropped; otherwise name and value are unquoted. -/
def qsField (field : String) : Option (String × String) :=
  if field = "" then none
  else
    match field.data.dropWhile (fun c => c ≠ '=') with
    | [] => none
    | _ :: valChars =>
      if valChars = [] then none
      else
        some (unquotePlus ⟨field.data.takeWhile (fun c => c ≠ '=')⟩,
              unquotePlus ⟨valChars⟩)

/-- Fold the parsed field list into a dict-of-lists, preserving first-seen
key order and appending repeated values (the shape of `parse_qs`). -/
def qsGroup (pairs : List (String × String)) : List (String × List String) :=
  pairs.foldl
    (fun acc p =>
      match alookup acc p.1 with
      | some _ => acc.map (fun q => if q.1 = p.1 then (q.1, q.2 ++ [p.2]) else q)
      | none => acc ++ [(p.1, [p.2])])
    []

/-- `urllib.parse.parse_qs(query)`. -/
def parse_qs (query : String) : List (String × List String) :=
  qsGroup ((pySplit '&' query).filterMap qsField)

/-- `urljoin(base, q)` for a relative reference `q` that begins with `?`
(the only shape this program joins): the base keeps everything up to its own
query/fragment and the new query string is appended. -/
def urljoinQ (base : String) (q : String) : String :=
  ⟨base.data.takeWhile (fun c => c ≠ '?' ∧ c ≠ '#')⟩ ++ q

/-- Python `s.startswith(p)`. -/
def strStarts (p s : String) : Bool :=
  p.data.isPrefixOf s.data

/-- Does `p` occur as a contiguous sublist of `l`? -/
def listHasInfix (p : List Char) : List Char → Bool
  | [] => p.isEmpty
  | c :: cs => p.isPrefixOf (c :: cs) || listHasInfix p cs

/-- Python `p in s` (substring containment). -/
def strIn (p s : String) : Bool :=
  listHasInfix p.data s.data

/-! ## Page and cache model -/

/-- An `<a>` element as the scraper sees it: its `href` attribute (absent
when the tag has none) and its `get_text()` content. -/
structure ATag where
  href : Option String
  text : String
deriving DecidableEq

/-- A fetched page, bundling the raw response text with the BeautifulSoup
views the scraper takes of it. -/
structure Markup where
  /-- `href` attribute of each element with `class="block p-2"` (document
  order); `none` when the element lacks the attribute. -/
  blockP2 : List (Option String)
  /-- All `<a>` tags of the page, in document order. -/
  anchors : List ATag
  /-- For each `<li class="hidden sm:block">` pagination item: its first
  descendant `<a>`, if any. -/
  liPagination : List (Option ATag)
  /-- `get_text(separator=' ')` of the `<main class="flex flex-1 flex-col">`
  element after the header / sidebar / call-to-action removals performed by
  `scrape_model_cards`; `none` when the page has no such main element. -/
  mainText : Option String
  /-- The raw `response.text`, scanned by the `pip install git+` regex. -/
  rawText : String
deriving DecidableEq

/-- The per-run HTML cache: a dict from URL to fetched markup, where a
cached `none` records a failed fetch (the code caches those too). -/
def Cache := List (String × Option Markup)

/-- Threaded state: the cache plus the instrumentation log of fetch-
collaborator invocations (in order). -/
structure St where
  cache : Cache
  log : List String

/-- The fetch collaborator: `fetch_html_content`, returning the page text
or `None` on any request error. -/
def Fetch := String → Option Markup

/-- `get_or_cache_html(url, cache)`: return the cached entry if present
(even a cached failure), otherwise invoke the fetch collaborator, record
the result under `url`, and return it.  The log gains `url` exactly when
the collaborator was invoked. -/
def get_or_cache_html (fetch : Fetch) (url : String) (st : St) :
    Option Markup × St :=
  match alookup st.cache url with
  | some v => (v, st)
  | none =>
    let v := fetch url
    (v, ⟨(url, v) :: st.cache, st.log ++ [url]⟩)

/-! ## Listing-page extraction passes -/

/-- `[element['href'] for element in elements if 'href' in element.attrs]`:
the model-link hrefs of a listing page, attribute-less elements skipped. -/
def hrefsOfBlockP2 (m : Markup) : List String :=
  m.blockP2.filterMap id

/-- Per-href body of `scrape_model_names`:
`href.split('/')[-1] if href.count('/') >= 2 else ' '`. -/
def nameOfHref (href : String) : String :=
  if 2 ≤ pyCount '/' href then (pySplit '/' href).getLastD "" else " "

/-- Per-href body of `scrape_model_repositories`: `href.split('/')[1]`,
which raises `IndexError` (modelled `none`) when the split has fewer than
two fields, i.e. when the href contains no `/`. -/
def repoOfHref (href : String) : Option String :=
  (pySplit '/' href)[1]?

/-- A list comprehension whose element expression can raise: evaluated left
to right, the first failure aborts the whole comprehension. -/
def mapOption? {α β : Type} (f : α → Option β) : List α → Option (List β)
  | [] => some []
  | a :: l =>
    match f a with
    | none => none
    | some b =>
      match mapOption? f l with
      | none => none
      | some bs => some (b :: bs)

/-- `scrape_model_names(href_values, cache)`: per listing URL, fetch via
the cache, skip pages whose markup is absent, and map each extracted
model-link href to its name. -/
def scrape_model_names (fetch : Fetch) : List String → St → List String × St
  | [], st => ([], st)
  | url :: rest, st =>
    let r := get_or_cache_html fetch url st
    let here : List String :=
      match r.1 with
      | some m => (hrefsOfBlockP2 m).map nameOfHref
      | none => []
    let t := scrape_model_names fetch rest r.2
    (here ++ t.1, t.2)

/-- `scrape_model_repositories(href_values, cache)`: like the name pass but
with the unguarded `split('/')[1]`; a slash-free href raises out of the
whole pass (result `none`), and nothing after the raise is fetched. -/
def scrape_model_repositories (fetch : Fetch) :
    List String → St → Option (List String) × St
  | [], st => (some [], st)
  | url :: rest, st =>
    let r := get_or_cache_html fetch url st
    match r.1 with
    | none =>
      let t := scrape_model_repositories fetch rest r.2
      (t.1, t.2)
    | some m =>
      match mapOption? repoOfHref (hrefsOfBlockP2 m) with
      | none => (none, r.2)
      | some here =>
        let t := scrape_model_repositories fetch rest r.2
        (t.1.map (fun l => here ++ l), t.2)

/-- `model_addresses(href_values, cache)`: the raw relative links. -/
def model_addresses (fetch : Fetch) : List String → St → List String × St
  | [], st => ([], st)
  | url :: rest, st =>
    let r := get_or_cache_html fetch url st
    let here : List String :=
      match r.1 with
      | some m => hrefsOfBlockP2 m
      | none => []
    let t := model_addresses fetch rest r.2
    (here ++ t.1, t.2)

/-- `fetch_huggingface_model_urls(href_values, cache)`: each link prefixed
with the fixed site origin. -/
def fetch_huggingface_model_urls (fetch : Fetch) :
    List String → St → List String × St
  | [], st => ([], st)
  | url :: rest, st =>
    let r := get_or_cache_html fetch url st
    let here : List String :=
      match r.1 with
      | some m =>
        (hrefsOfBlockP2 m).map (fun h => "https://huggingface.co" ++ h)
      | none => []
    let t := fetch_huggingface_model_urls fetch rest r.2
    (here ++ t.1, t.2)

/-! ## Detail-page extraction passes -/

/-- Literal matched by the regex `pip install git\+(https://github\.com/[^\s]+)`
before the non-space run. -/
def pipLit : List Char := "pip install git+https://github.com/".data

/-- Captured part of that regex up to the non-space run. -/
def ghLit : List Char := "https://github.com/".data

/-- `re.findall` of the pip-install pattern: scan left to right; at a match
the capture is `https://github.com/` followed by the maximal non-empty run
of non-whitespace, and scanning resumes after the match (non-overlapping);
otherwise advance one character.  `fuel` is always the scanned length, which
bounds the number of steps, so the `0` branch is never the final answer. -/
def pipScan : Nat → List Char → List String
  | 0, _ => []
  | _ + 1, [] => []
  | fuel + 1, c :: cs =>
    if pipLit.isPrefixOf (c :: cs) then
      let rest := (c :: cs).drop pipLit.length
      let run := rest.takeWhile (fun ch => !(isPySpace ch))
      if run.isEmpty then pipScan fuel cs
      else (⟨ghLit ++ run⟩ : String) :: pipScan fuel (rest.drop run.length)
    else pipScan fuel cs

/-- All captures of the pip-install pattern in a page's raw text. -/
def pipFindall (s : String) : List String :=
  pipScan s.data.length s.data

/-- `set.add`: the model of a Python `set` is a duplicate-free list in
insertion order (a fixed enumeration order consistent with the within-run
stability of CPython set iteration). -/
def addUnique (l : List String) (x : String) : List String :=
  if x ∈ l then l else l ++ [x]

/-- The `unique_github_links` set built for one detail page: first the pip
regex captures, then every anchor href starting with a GitHub origin. -/
def githubLinkList (m : Markup) : List String :=
  let l := (pipFindall m.rawText).foldl addUnique []
  m.anchors.foldl
    (fun acc a =>
      match a.href with
      | some h =>
        if strStarts "https://github.com/" h || strStarts "http://github.com/" h
        then addUnique acc h else acc
      | none => acc)
    l

/-- `scrape_github_links(model_urls, cache)`: one comma-and-space-joined
string per reachable detail page. -/
def scrape_github_links (fetch : Fetch) : List String → St → List String × St
  | [], st => ([], st)
  | url :: rest, st =>
    let r := get_or_cache_html fetch url st
    let here : List String :=
      match r.1 with
      | some m => [String.intercalate ", " (githubLinkList m)]
      | none => []
    let t := scrape_github_links fetch rest r.2
    (here ++ t.1, t.2)

/-- Cleanup of the extracted main text in `scrape_model_cards`: split into
lines, keep the stripped form of each non-blank line, join with spaces. -/
def cleanCardText (s : String) : String :=
  String.intercalate " "
    (((pySplit '\n' s).map pyStrip).filter (fun l => l ≠ ""))

/-- `scrape_model_cards(model_urls, cache)`: pages with no main element (or
absent markup) contribute nothing. -/
def scrape_model_cards (fetch : Fetch) : List String → St → List String × St
  | [], st => ([], st)
  | url :: rest, st =>
    let r := get_or_cache_html fetch url st
    let here : List String :=
      match r.1 with
      | some m =>
        match m.mainText with
        | some s => [cleanCardText s]
        | none => []
      | none => []
    let t := scrape_model_cards fetch rest r.2
    (here ++ t.1, t.2)

/-! ## Tag categorization -/

/-- The seven-category dict initialised by `scrape_category_tags`, in its
literal key order. -/
def CatDict := List (String × List String)

/-- The dict literal `{'Task': [], 'Library': [], 'Language': [],
'Others': [], 'Arxiv': [], 'License': [], 'Dataset': []}`. -/
def initCats : CatDict :=
  [("Task", []), ("Library", []), ("Language", []), ("Others", []),
   ("Arxiv", []), ("License", []), ("Dataset", [])]

/-- `category_items[heading].append(tag_text)`. -/
def addTag (cats : CatDict) (heading t : String) : CatDict :=
  cats.map (fun p => if p.1 = heading then (p.1, p.2 ++ [t]) else p)

/-- The `if/elif` chain classifying an anchor's href (code order). -/
def classifyHref (href : String) : Option String :=
  if strStarts "/models?pipeline_tag=" href then some "Task"
  else if strStarts "/models?library=" href then some "Library"
  else if strStarts "/models?language=" href then some "Language"
  else if strStarts "/models?other=" href then
    if strIn "=arxiv%" href then some "Arxiv" else some "Others"
  else if strStarts "/models?license=license%3A" href then some "License"
  else if strStarts "/models?dataset=dataset%3A" href then some "Dataset"
  else none

/-- Tag-text cleaning: `get_text().strip()`, newline characters removed,
and — for the License category — `replace('License: ', '')`, which removes
every occurrence of the label, not only a leading one. -/
def tagTextOf (heading : String) (raw : String) : String :=
  let t := removeNewlines (pyStrip raw)
  if heading = "License" then pyRemoveAll "License: " t else t

/-- The loop body of `scrape_category_tags` for one anchor: classify by
href (anchors without the attribute classify their default `''`), skip on
no match, otherwise append the cleaned tag text to the category. -/
def catStep (cats : CatDict) (a : ATag) : CatDict :=
  match classifyHref (a.href.getD "") with
  | none => cats
  | some heading => addTag cats heading (tagTextOf heading a.text)

/-- The per-page body of `scrape_category_tags`: classify every anchor in
document order, appending cleaned tag text to its category. -/
def catsOfMarkup (m : Markup) : CatDict :=
  m.anchors.foldl catStep initCats

/-- `scrape_category_tags(model_urls, cache)`. -/
def scrape_category_tags (fetch : Fetch) : List String → St → List CatDict × St
  | [], st => ([], st)
  | url :: rest, st =>
    let r := get_or_cache_html fetch url st
    let here : List CatDict :=
      match r.1 with
      | some m => [catsOfMarkup m]
      | none => []
    let t := scrape_category_tags fetch rest r.2
    (here ++ t.1, t.2)

/-! ## Pagination planner -/

/-- `int(query_params.get('p', [0])[0])`: the default `[0]` makes a missing
`p` parameter yield page `0`; a present but non-integer value raises
`ValueError` (`none`). -/
def pParamOf (href : String) : Option Int :=
  match alookup (parse_qs (urlQuery href)) "p" with
  | none => some 0
  | some vs => pyInt (vs.headD "")

/-- The nested batching loops
`for batch_start in range(0, max_page + 1, batch_size):`
`  for page_number in range(batch_start, min(batch_start + batch_size, max_page + 1)):`
flattened into the list of visited page numbers.  `fuel` bounds the number
of outer iterations; every call passes `fuel = N`, which suffices whenever
`0 < bs`, so the `0` branch is never the final answer on those calls. -/
def batchLoop (N bs : Nat) : Nat → Nat → List Nat
  | 0, _ => []
  | fuel + 1, start =>
    if start < N then
      List.range' start (min (start + bs) N - start) ++
        batchLoop N bs fuel (start + bs)
    else []

/-- `generate_model_page_urls_with_pagination(base_url, batch_size)`.

Everything sits in a `try`/`except` returning `[]`: a failed base fetch, an
empty pagination list (`li_elements[-1]` → `IndexError`), a pagination item
with no `<a>` (`find('a')['href']` → `TypeError`), a missing `href`
attribute (`KeyError`), a non-integer `p` value (`ValueError`), and
`batch_size = 0` (`range(..., 0)` → `ValueError`) all yield `[]`.

Note the base page is looked up in a FRESH empty dict (`{}` at the call on
line 147), not in the run's shared cache, so reaching this function always
invokes the fetch collaborator once; the second component is the updated
fetch log. -/
def generate_model_page_urls_with_pagination (fetch : Fetch)
    (base_url : String) (batch_size : Nat) (log : List String) :
    List String × List String :=
  let r := get_or_cache_html fetch base_url ⟨[], log⟩
  let out : List String :=
    match r.1 with
    | none => []
    | some m =>
      match m.liPagination.getLast? with
      | none => []
      | some li =>
        match li with
        | none => []
        | some a =>
          match a.href with
          | none => []
          | some last_href =>
            match pParamOf last_href with
            | none => []
            | some max_page =>
              if batch_size = 0 then []
              else
                let N := (max_page + 1).toNat
                ((batchLoop N batch_size N 0).map
                  (fun n =>
                    urljoinQ base_url
                      ("?p=" ++ toString n ++ "&sort=trending"))).take 3
  (out, r.2.log)

/-! ## Aggregation and the pipeline driver -/

/-- One output row, fields in the fixed CSV column order
`Sr.no, ModelName, ModelRepo, ModelAddress, ModelUrl, Tasks, Libraries,
Dataset, Languages, Other, Arxiv, Licenses, Github Links, Body`. -/
structure Row where
  idx : Nat
  name : String
  repo : String
  address : String
  url : String
  tasks : String
  libraries : String
  dataset : String
  languages : String
  others : String
  arxiv : String
  licenses : String
  github : String
  body : String
deriving DecidableEq

/-- `', '.join(x[c])` for one category of one page's tag dict.  The dict
indexing assumes the key is present, which `scrape_category_tags`
guarantees (see the category-keys theorem); an absent key contributes the
empty join. -/
def catJoin (x : CatDict) (c : String) : String :=
  String.intercalate ", " ((alookup x c).getD [])

/-- Lines 572-583 of `run`: per-category joins followed by
`zip(range(1, len(model_names) + 1), model_names, model_repo, ...)`.
Python's `zip` truncates to the shortest input; it is modelled by nested
binary zips re-tupled into `Row`s. -/
def aggregate (model_names model_repo model_address model_url : List String)
    (cats : List CatDict) (gh cards : List String) : List Row :=
  let task_data := cats.map (fun x => catJoin x "Task")
  let library_data := cats.map (fun x => catJoin x "Library")
  let dataset_data := cats.map (fun x => catJoin x "Dataset")
  let arxiv_data := cats.map (fun x => catJoin x "Arxiv")
  let language_data := cats.map (fun x => catJoin x "Language")
  let others_data := cats.map (fun x => catJoin x "Others")
  let license_data := cats.map (fun x => catJoin x "License")
  ((((((((((((((List.range' 1 model_names.length).zip model_names).zip
    model_repo).zip model_address).zip model_url).zip task_data).zip
    library_data).zip dataset_data).zip language_data).zip others_data).zip
    arxiv_data).zip license_data).zip gh).zip cards).map
    (fun x =>
      match x with
      | (((((((((((((i, nm), rp), ad), ur), tk), lb), ds), lg), ot), ax),
          lc), gl), bd) =>
        ⟨i, nm, rp, ad, ur, tk, lb, ds, lg, ot, ax, lc, gl, bd⟩)

/-- The fixed target of `run`. -/
def base_url : String := "https://huggingface.co/models"

/-- How one pipeline execution ends. -/
inductive RunOutcome where
  /-- `run` returned at line 557 because the base page was unreachable. -/
  | earlyReturn : RunOutcome
  /-- An exception escaped `scrape_model_repositories` (unguarded index). -/
  | crashed : RunOutcome
  /-- `run` reached `save_to_csv` with these rows. -/
  | completed : List Row → RunOutcome
deriving DecidableEq

/-- `run()` up to the rows handed to `save_to_csv` (the CSV writing itself
is an external sink).  The shared `cache` dict is threaded through every
pass; the pagination planner, as in the source, gets a fresh `{}` instead,
though its fetch still shows up in the run's fetch log. -/
def runModel (fetch : Fetch) : RunOutcome × St :=
  let st0 : St := ⟨[], []⟩
  let r := get_or_cache_html fetch base_url st0
  match r.1 with
  | none => (.earlyReturn, r.2)
  | some _ =>
    let gen := generate_model_page_urls_with_pagination fetch base_url 50
      r.2.log
    let href_values := gen.1
    let st2 : St := ⟨r.2.cache, gen.2⟩
    let names := scrape_model_names fetch href_values st2
    let repos := scrape_model_repositories fetch href_values names.2
    match repos.1 with
    | none => (.crashed, repos.2)
    | some model_repo =>
      let addrs := model_addresses fetch href_values repos.2
      let urls := fetch_huggingface_model_urls fetch href_values addrs.2
      let cards := scrape_model_cards fetch urls.1 urls.2
      let gh := scrape_github_links fetch urls.1 cards.2
      let cats := scrape_category_tags fetch urls.1 gh.2
      (.completed
        (aggregate names.1 model_repo addrs.1 urls.1 cats.1 gh.1 cards.1),
       cats.2)

/-! ## Basic cache lemmas -/

theorem get_or_cache_fst (fetch : Fetch) (u : String) (st : St) :
    (get_or_cache_html fetch u st).1 =
      match alookup st.cache u with
      | some v => v
      | none => fetch u := by
  unfold get_or_cache_html
  cases alookup st.cache u <;> rfl

theorem get_or_cache_cache (fetch : Fetch) (u : String) (st : St) (v : String) :
    alookup (get_or_cache_html fetch u st).2.cache v =
      if u = v then some ((get_or_cache_html fetch u st).1)
      else alookup st.cache v := by
  unfold get_or_cache_html
  cases h : alookup st.cache u with
  | some w =>
    simp only []
    by_cases hv : u = v
    · subst hv; simp [h]
    · simp [hv]
  | none =>
    simp [alookup]

/-! ## C6: model URLs are the addresses with the fixed origin prepended -/

theorem model_urls_eq_addresses (fetch : Fetch) :
    ∀ (urls : List String) (st : St),
      fetch_huggingface_model_urls fetch urls st =
        ((model_addresses fetch urls st).1.map
           (fun a => "https://huggingface.co" ++ a),
         (model_addresses fetch urls st).2) := by
  intro urls
  induction urls with
  | nil => intro st; rfl
  | cons u rest ih =>
    intro st
    simp only [fetch_huggingface_model_urls, model_addresses]
    rw [ih]
    cases h : (get_or_cache_html fetch u st).1 <;> simp [h]

/-- C6: for the same listing URLs and the same cache contents, the output of
`fetch_huggingface_model_urls` is the output of `model_addresses` mapped
through prepending the fixed origin `https://huggingface.co`; every record
thus satisfies `url = origin ++ address`. -/
theorem C6_url_is_origin_plus_address (fetch : Fetch) (urls : List String)
    (st : St) :
    (fetch_huggingface_model_urls fetch urls st).1 =
      (model_addresses fetch urls st).1.map
        (fun a => "https://huggingface.co" ++ a) := by
  rw [model_urls_eq_addresses]

/-! ## C9: the GitHub-link pass is a function of the markup it reads -/

/-- C9: two evaluations of `scrape_github_links` over the same URL list,
with caches that agree on those URLs and fetch collaborators that agree on
those URLs, produce identical output strings — identical member order
included, since the joined strings are equal outright. -/
theorem C9_github_links_reproducible (f₁ f₂ : Fetch) (urls : List String)
    (st₁ st₂ : St)
    (hc : ∀ u ∈ urls, alookup st₁.cache u = alookup st₂.cache u)
    (hf : ∀ u ∈ urls, f₁ u = f₂ u) :
    (scrape_github_links f₁ urls st₁).1 =
      (scrape_github_links f₂ urls st₂).1 := by
  induction urls generalizing st₁ st₂ with
  | nil => rfl
  | cons u rest ih =>
    have hres : (get_or_cache_html f₁ u st₁).1 =
        (get_or_cache_html f₂ u st₂).1 := by
      rw [get_or_cache_fst, get_or_cache_fst,
        hc u (List.mem_cons_self u rest), hf u (List.mem_cons_self u rest)]
    have hcache : ∀ v ∈ rest,
        alookup (get_or_cache_html f₁ u st₁).2.cache v =
          alookup (get_or_cache_html f₂ u st₂).2.cache v := by
      intro v hv
      rw [get_or_cache_cache, get_or_cache_cache, hres,
        hc v (List.mem_cons_of_mem u hv)]
    have hrest := ih (get_or_cache_html f₁ u st₁).2
      (get_or_cache_html f₂ u st₂).2 hcache
      (fun v hv => hf v (List.mem_cons_of_mem u hv))
    simp only [scrape_github_links]
    rw [hres, hrest]

/-- Witness for C9 at a concrete page. -/
def mC9 : Markup :=
  ⟨[], [⟨some "https://github.com/a/b", "code"⟩], [], none,
   "pip install git+https://github.com/x/y"⟩

theorem C9_witness :
    ((∀ u ∈ ["https://huggingface.co/o/m"],
        alookup (⟨[], []⟩ : St).cache u = alookup (⟨[], []⟩ : St).cache u) ∧
      (∀ u ∈ ["https://huggingface.co/o/m"],
        (fun _ => some mC9 : Fetch) u = (fun _ => some mC9 : Fetch) u)) ∧
    (scrape_github_links (fun _ => some mC9) ["https://huggingface.co/o/m"]
        ⟨[], []⟩).1 =
      (scrape_github_links (fun _ => some mC9) ["https://huggingface.co/o/m"]
        ⟨[], []⟩).1 :=
  ⟨⟨fun _ _ => rfl, fun _ _ => rfl⟩,
   C9_github_links_reproducible _ _ _ _ _ (fun _ _ => rfl) (fun _ _ => rfl)⟩

/-! ## C5: the two GitHub-link discovery mechanisms are deduplicated -/

theorem addUnique_nodup {l : List String} {x : String} (h : l.Nodup) :
    (addUnique l x).Nodup := by
  unfold addUnique
  split
  · exact h
  · next hx => simp [List.nodup_append, h, hx]

theorem mem_addUnique_self (l : List String) (x : String) :
    x ∈ addUnique l x := by
  unfold addUnique
  split
  · assumption
  · simp

theorem mem_addUnique_of_mem {l : List String} {y : String} (x : String)
    (h : y ∈ l) : y ∈ addUnique l x := by
  unfold addUnique
  split
  · exact h
  · exact List.mem_append_left _ h

theorem foldl_addUnique_nodup :
    ∀ (xs l : List String), l.Nodup → (xs.foldl addUnique l).Nodup
  | [], _, h => h
  | _ :: xs, l, h => foldl_addUnique_nodup xs _ (addUnique_nodup h)

theorem mem_foldl_addUnique :
    ∀ (xs l : List String) (y : String), y ∈ l → y ∈ xs.foldl addUnique l
  | [], _, _, h => h
  | x :: xs, l, y, h =>
    mem_foldl_addUnique xs _ y (mem_addUnique_of_mem x h)

theorem mem_foldl_addUnique_of_mem :
    ∀ (xs l : List String) (y : String), y ∈ xs → y ∈ xs.foldl addUnique l := by
  intro xs
  induction xs with
  | nil => intro l y h; cases h
  | cons x xs ih =>
    intro l y h
    rcases List.mem_cons.1 h with h | h
    · subst h
      exact mem_foldl_addUnique xs _ y (mem_addUnique_self l y)
    · exact ih _ y h

/-- The anchor-scan step of `githubLinkList`. -/
def ghStep (acc : List String) (a : ATag) : List String :=
  match a.href with
  | some h =>
    if strStarts "https://github.com/" h || strStarts "http://github.com/" h
    then addUnique acc h else acc
  | none => acc

theorem githubLinkList_eq_foldl (m : Markup) :
    githubLinkList m =
      m.anchors.foldl ghStep ((pipFindall m.rawText).foldl addUnique []) := by
  rfl

theorem foldl_ghStep_nodup :
    ∀ (l : List ATag) (acc : List String), acc.Nodup →
      (l.foldl ghStep acc).Nodup := by
  intro l
  induction l with
  | nil => exact fun _ h => h
  | cons a l ih =>
    intro acc h
    refine ih _ ?_
    rcases ha : a.href with _ | s
    · simpa [ghStep, ha] using h
    · by_cases hc : (strStarts "https://github.com/" s ||
        strStarts "http://github.com/" s) = true
      · simpa [ghStep, ha, hc] using addUnique_nodup h
      · simpa [ghStep, ha, hc] using h

theorem mem_foldl_ghStep :
    ∀ (l : List ATag) (acc : List String) (y : String), y ∈ acc →
      y ∈ l.foldl ghStep acc := by
  intro l
  induction l with
  | nil => exact fun _ _ h => h
  | cons a l ih =>
    intro acc y h
    refine ih _ y ?_
    rcases ha : a.href with _ | s
    · simpa [ghStep, ha] using h
    · by_cases hc : (strStarts "https://github.com/" s ||
        strStarts "http://github.com/" s) = true
      · simpa [ghStep, ha, hc] using mem_addUnique_of_mem s h
      · simpa [ghStep, ha, hc] using h

theorem githubLinkList_nodup (m : Markup) : (githubLinkList m).Nodup := by
  rw [githubLinkList_eq_foldl]
  exact foldl_ghStep_nodup _ _ (foldl_addUnique_nodup _ _ List.nodup_nil)

/-- C5: if the pip-install pattern captures a GitHub URL that also occurs
as a GitHub-prefixed anchor href, the per-page link set still counts it
exactly once (the two discovery mechanisms are unioned into a deduplicated
set), and the page's reported entry is exactly the comma-and-space join of
that set. -/
theorem C5_github_links_deduplicated (m : Markup) (url : String)
    (fetch : Fetch) (u : String) (st : St)
    (hpip : url ∈ pipFindall m.rawText)
    (ha : ∃ a ∈ m.anchors, a.href = some url ∧
      (strStarts "https://github.com/" url || strStarts "http://github.com/" url)
        = true)
    (hm : (get_or_cache_html fetch u st).1 = some m) :
    (githubLinkList m).count url = 1 ∧
    (scrape_github_links fetch [u] st).1 =
      [String.intercalate ", " (githubLinkList m)] := by
  constructor
  · have hmem : url ∈ githubLinkList m := by
      rw [githubLinkList_eq_foldl]
      exact mem_foldl_ghStep _ _ _ (mem_foldl_addUnique_of_mem _ _ _ hpip)
    exact List.count_eq_one_of_mem (githubLinkList_nodup m) hmem
  · simp [scrape_github_links, hm]

/-- Witness inputs for C5. -/
def mC5 : Markup :=
  ⟨[], [⟨some "https://github.com/a/b", "repo link"⟩], [], none,
   "More info: pip install git+https://github.com/a/b then run it."⟩

theorem C5_witness :
    ("https://github.com/a/b" ∈ pipFindall mC5.rawText ∧
      (∃ a ∈ mC5.anchors, a.href = some "https://github.com/a/b" ∧
        (strStarts "https://github.com/" "https://github.com/a/b" ||
          strStarts "http://github.com/" "https://github.com/a/b") = true)) ∧
    (githubLinkList mC5).count "https://github.com/a/b" = 1 ∧
    (scrape_github_links (fun _ => some mC5) ["https://huggingface.co/a/b"]
        ⟨[], []⟩).1 =
      [String.intercalate ", " (githubLinkList mC5)] :=
  ⟨⟨by decide, by decide⟩,
   C5_github_links_deduplicated mC5 "https://github.com/a/b"
     (fun _ => some mC5) "https://huggingface.co/a/b" ⟨[], []⟩
     (by decide) (by decide) rfl⟩

/-! ## C1: extraction of name and owner from a model link -/

theorem splitAux_of_not_mem {sep : Char} :
    ∀ {xs : List Char} (acc : List Char), sep ∉ xs →
      splitAux sep xs acc = [acc.reverse ++ xs] := by
  intro xs
  induction xs with
  | nil => intro acc _; simp [splitAux]
  | cons c cs ih =>
    intro acc h
    have hc : ¬c = sep := fun e => h (by simp [e])
    have hcs : sep ∉ cs := fun e => h (List.mem_cons_of_mem c e)
    simp [splitAux, hc, ih (c :: acc) hcs]

theorem splitAux_append_sep {sep : Char} :
    ∀ {xs : List Char} (ys acc : List Char), sep ∉ xs →
      splitAux sep (xs ++ sep :: ys) acc =
        (acc.reverse ++ xs) :: splitAux sep ys [] := by
  intro xs
  induction xs with
  | nil => intro ys acc _; simp [splitAux]
  | cons c cs ih =>
    intro ys acc h
    have hc : ¬c = sep := fun e => h (by simp [e])
    have hcs : sep ∉ cs := fun e => h (List.mem_cons_of_mem c e)
    simp [splitAux, hc, ih ys (c :: acc) hcs]

theorem pySplit_owner_name (o n : String) (ho : '/' ∉ o.data)
    (hn : '/' ∉ n.data) :
    pySplit '/' ("/" ++ o ++ "/" ++ n) = ["", o, n] := by
  have hd : ("/" ++ o ++ "/" ++ n).data =
      '/' :: (o.data ++ '/' :: n.data) := by
    simp [String.data_append]
  unfold pySplit
  rw [hd]
  have h1 : splitAux '/' ('/' :: (o.data ++ '/' :: n.data)) [] =
      [] :: splitAux '/' (o.data ++ '/' :: n.data) [] := by
    simp [splitAux]
  rw [h1, splitAux_append_sep n.data [] ho, splitAux_of_not_mem [] hn]
  simp

theorem pyCount_owner_name (o n : String) (ho : '/' ∉ o.data)
    (hn : '/' ∉ n.data) :
    pyCount '/' ("/" ++ o ++ "/" ++ n) = 2 := by
  unfold pyCount
  have hd : ("/" ++ o ++ "/" ++ n).data =
      '/' :: (o.data ++ '/' :: n.data) := by
    simp [String.data_append]
  rw [hd]
  simp [List.count_cons, List.count_append,
    List.count_eq_zero_of_not_mem ho, List.count_eq_zero_of_not_mem hn]

theorem nameOfHref_owner_name (o n : String) (ho : '/' ∉ o.data)
    (hn : '/' ∉ n.data) :
    nameOfHref ("/" ++ o ++ "/" ++ n) = n := by
  unfold nameOfHref
  rw [pyCount_owner_name o n ho hn, pySplit_owner_name o n ho hn]
  simp

theorem repoOfHref_owner_name (o n : String) (ho : '/' ∉ o.data)
    (hn : '/' ∉ n.data) :
    repoOfHref ("/" ++ o ++ "/" ++ n) = some o := by
  unfold repoOfHref
  rw [pySplit_owner_name o n ho hn]
  rfl

/-- The model-link shape `/{owner}/{name}`. -/
def mkLink (o n : String) : String := "/" ++ o ++ "/" ++ n

theorem map_name_zipWith :
    ∀ (os ns : List String), os.length = ns.length →
      (∀ o ∈ os, '/' ∉ o.data) → (∀ n ∈ ns, '/' ∉ n.data) →
      (List.zipWith mkLink os ns).map nameOfHref = ns := by
  intro os
  induction os with
  | nil =>
    intro ns hlen _ _
    cases ns with
    | nil => rfl
    | cons n ns => simp at hlen
  | cons o os ih =>
    intro ns hlen hos hns
    cases ns with
    | nil => simp at hlen
    | cons n ns =>
      have h1 := nameOfHref_owner_name o n (hos o (by simp))
        (hns n (by simp))
      have h2 := ih ns (by simpa using hlen)
        (fun x hx => hos x (List.mem_cons_of_mem o hx))
        (fun x hx => hns x (List.mem_cons_of_mem n hx))
      simp only [List.zipWith_cons_cons, List.map_cons, h2]
      rw [show mkLink o n = "/" ++ o ++ "/" ++ n from rfl, h1]

theorem mapM_repo_zipWith :
    ∀ (os ns : List String), os.length = ns.length →
      (∀ o ∈ os, '/' ∉ o.data) → (∀ n ∈ ns, '/' ∉ n.data) →
      mapOption? repoOfHref (List.zipWith mkLink os ns) = some os := by
  intro os
  induction os with
  | nil =>
    intro ns hlen _ _
    cases ns with
    | nil => rfl
    | cons n ns => simp at hlen
  | cons o os ih =>
    intro ns hlen hos hns
    cases ns with
    | nil => simp at hlen
    | cons n ns =>
      have h1 := repoOfHref_owner_name o n (hos o (by simp))
        (hns n (by simp))
      have h2 := ih ns (by simpa using hlen)
        (fun x hx => hos x (List.mem_cons_of_mem o hx))
        (fun x hx => hns x (List.mem_cons_of_mem n hx))
      simp only [List.zipWith_cons_cons, mapOption?, h2]
      rw [show mkLink o n = "/" ++ o ++ "/" ++ n from rfl, h1]

/-- C1: on a listing page whose model-link hrefs all have the shape
`/{owner}/{name}`, the name pass returns exactly the names (last path
segment) and the repository pass exactly the owners (second path segment);
and on any href with fewer than two `/` separators the name entry is the
single-whitespace placeholder. -/
theorem C1_names_and_repositories (fetch : Fetch) (u : String) (st : St)
    (m : Markup) (os ns : List String)
    (hm : (get_or_cache_html fetch u st).1 = some m)
    (hlen : os.length = ns.length)
    (hos : ∀ o ∈ os, '/' ∉ o.data)
    (hns : ∀ n ∈ ns, '/' ∉ n.data)
    (hform : hrefsOfBlockP2 m = List.zipWith mkLink os ns) :
    (scrape_model_names fetch [u] st).1 = ns ∧
    (scrape_model_repositories fetch [u] st).1 = some os ∧
    ∀ href : String, pyCount '/' href < 2 → nameOfHref href = " " := by
  refine ⟨?_, ?_, ?_⟩
  · simp only [scrape_model_names, hm]
    rw [hform, map_name_zipWith os ns hlen hos hns]
    simp
  · simp only [scrape_model_repositories, hm]
    rw [hform, mapM_repo_zipWith os ns hlen hos hns]
    simp [scrape_model_repositories]
  · intro href h
    unfold nameOfHref
    rw [if_neg (by omega)]

/-- Witness inputs for C1: a listing page with two model links. -/
def mC1 : Markup :=
  ⟨[some "/alice/m1", some "/bob/m2"], [], [], none, ""⟩

theorem C1_witness :
    ((get_or_cache_html (fun _ => some mC1)
        "https://huggingface.co/models?p=0&sort=trending" ⟨[], []⟩).1 =
        some mC1 ∧
      hrefsOfBlockP2 mC1 = List.zipWith mkLink ["alice", "bob"] ["m1", "m2"]) ∧
    (scrape_model_names (fun _ => some mC1)
        ["https://huggingface.co/models?p=0&sort=trending"] ⟨[], []⟩).1 =
      ["m1", "m2"] ∧
    (scrape_model_repositories (fun _ => some mC1)
        ["https://huggingface.co/models?p=0&sort=trending"] ⟨[], []⟩).1 =
      some ["alice", "bob"] ∧
    nameOfHref "standalone" = " " :=
  have h := C1_names_and_repositories (fun _ => some mC1)
    "https://huggingface.co/models?p=0&sort=trending" ⟨[], []⟩ mC1
    ["alice", "bob"] ["m1", "m2"] rfl rfl (by decide) (by decide) (by decide)
  ⟨⟨rfl, by decide⟩, h.1, h.2.1, h.2.2 "standalone" (by decide)⟩

/-! ## C2 and C8: the pagination planner -/

theorem get_or_cache_fresh (fetch : Fetch) (u : String) (log : List String) :
    (get_or_cache_html fetch u ⟨[], log⟩).1 = fetch u := by
  rw [get_or_cache_fst]; rfl

theorem batchLoop_eq (N bs : Nat) (hbs : 0 < bs) :
    ∀ (fuel start : Nat), N ≤ start + fuel * bs →
      batchLoop N bs fuel start = List.range' start (N - start) := by
  intro fuel
  induction fuel with
  | zero =>
    intro start h
    simp only [Nat.zero_mul, Nat.add_zero] at h
    rw [show N - start = 0 from by omega]
    rfl
  | succ fuel ih =>
    intro start h
    rw [Nat.succ_mul] at h
    by_cases hlt : start < N
    · have hstep : batchLoop N bs (fuel + 1) start =
          List.range' start (min (start + bs) N - start) ++
            batchLoop N bs fuel (start + bs) := by
        simp [batchLoop, hlt]
      rw [hstep, ih (start + bs) (by omega)]
      by_cases hle : start + bs ≤ N
      · rw [show min (start + bs) N - start = bs from by omega,
          show N - (start + bs) = N - start - bs from by omega]
        have happ := List.range'_append start bs (N - start - bs) 1
        rw [Nat.one_mul] at happ
        rw [show N - start - bs + bs = N - start from by omega] at happ
        exact happ
      · rw [show min (start + bs) N - start = N - start from by omega,
          show N - (start + bs) = 0 from by omega]
        simp
    · have hstep : batchLoop N bs (fuel + 1) start = [] := by
        simp [batchLoop, hlt]
      rw [hstep, show N - start = 0 from by omega]
      rfl

/-- C2: whenever the last pagination item of the base page links to an href
whose `p` query parameter parses as the integer `P`, the planner builds the
full batched sequence of listing URLs for page indices `0..P` (each the
base URL joined with `?p={n}&sort=trending`) and returns only its first 3
elements, so the result has `min (P+1) 3` entries regardless of `P`. -/
theorem C2_pagination_plan (fetch : Fetch) (burl : String) (bs : Nat)
    (log : List String) (m : Markup) (a : ATag) (h : String) (P : Int)
    (hm : fetch burl = some m)
    (hlast : m.liPagination.getLast? = some (some a))
    (hhref : a.href = some h)
    (hq : ∃ vs, alookup (parse_qs (urlQuery h)) "p" = some vs ∧
      pyInt (vs.headD "") = some P)
    (hbs : 0 < bs) :
    (generate_model_page_urls_with_pagination fetch burl bs log).1 =
      ((List.range ((P + 1).toNat)).map
        (fun n => urljoinQ burl ("?p=" ++ toString n ++ "&sort=trending"))).take
        3 ∧
    (generate_model_page_urls_with_pagination fetch burl bs log).1.length =
      min ((P + 1).toNat) 3 := by
  obtain ⟨vs, hv, hi⟩ := hq
  have hp : pParamOf h = some P := by
    unfold pParamOf
    rw [hv]
    exact hi
  have hfirst :
      (generate_model_page_urls_with_pagination fetch burl bs log).1 =
        ((List.range ((P + 1).toNat)).map
          (fun n => urljoinQ burl ("?p=" ++ toString n ++ "&sort=trending"))).take
          3 := by
    simp only [generate_model_page_urls_with_pagination, get_or_cache_fresh,
      hm, hlast, hhref, hp]
    rw [if_neg (by omega)]
    rw [batchLoop_eq ((P + 1).toNat) bs hbs ((P + 1).toNat) 0
      (by have := Nat.le_mul_of_pos_right (P + 1).toNat hbs; omega)]
    rw [Nat.sub_zero, ← List.range_eq_range']
  refine ⟨hfirst, ?_⟩
  rw [hfirst]
  simp [List.length_take, Nat.min_comm]

/-- Witness inputs for C2: a base page whose last pagination link is
`?p=7`. -/
def mC2 : Markup := ⟨[], [], [some ⟨some "?p=7", "7"⟩], none, ""⟩

/-- The fetch collaborator used by the C2 witness. -/
def fetchC2 : Fetch := fun u => if u = base_url then some mC2 else none

theorem C2_witness :
    (fetchC2 base_url = some mC2 ∧
      mC2.liPagination.getLast? = some (some ⟨some "?p=7", "7"⟩) ∧
      (∃ vs, alookup (parse_qs (urlQuery "?p=7")) "p" = some vs ∧
        pyInt (vs.headD "") = some 7)) ∧
    (generate_model_page_urls_with_pagination fetchC2 base_url 50 []).1 =
      ((List.range (((7 : Int) + 1).toNat)).map
        (fun n =>
          urljoinQ base_url ("?p=" ++ toString n ++ "&sort=trending"))).take
        3 ∧
    (generate_model_page_urls_with_pagination fetchC2 base_url 50 []).1.length =
      min (((7 : Int) + 1).toNat) 3 :=
  have h := C2_pagination_plan fetchC2 base_url 50 [] mC2
    ⟨some "?p=7", "7"⟩ "?p=7" 7 (by decide) (by decide) rfl
    ⟨["7"], by decide, by decide⟩ (by decide)
  ⟨⟨by decide, by decide, ⟨["7"], by decide, by decide⟩⟩, h.1, h.2⟩

/-- The disjunction of parse failures inside the planner's `try` block:
a failed base fetch, no pagination items (`IndexError`), a last item with
no `<a>` (`TypeError`), a link without `href` (`KeyError`), or a present
but non-integer `p` value (`ValueError`). -/
def paginationParseFails (fetch : Fetch) (burl : String) : Prop :=
  fetch burl = none ∨
  ∃ m, fetch burl = some m ∧
    (m.liPagination.getLast? = none ∨
     m.liPagination.getLast? = some none ∨
     ∃ a, m.liPagination.getLast? = some (some a) ∧
       (a.href = none ∨ ∃ h, a.href = some h ∧ pParamOf h = none))

theorem gen_fail_empty (fetch : Fetch) (burl : String) (bs : Nat)
    (hfail : paginationParseFails fetch burl) (log : List String) :
    (generate_model_page_urls_with_pagination fetch burl bs log).1 = [] := by
  rcases hfail with hnone | ⟨m, hm, hstruct⟩
  · simp only [generate_model_page_urls_with_pagination, get_or_cache_fresh,
      hnone]
  · rcases hstruct with hl | hl | ⟨a, ha, hstruct⟩
    · simp only [generate_model_page_urls_with_pagination, get_or_cache_fresh,
        hm, hl]
    · simp only [generate_model_page_urls_with_pagination, get_or_cache_fresh,
        hm, hl]
    · rcases hstruct with hh | ⟨h, hh, hp⟩
      · simp only [generate_model_page_urls_with_pagination,
          get_or_cache_fresh, hm, ha, hh]
      · simp only [generate_model_page_urls_with_pagination,
          get_or_cache_fresh, hm, ha, hh, hp]

/-- C8: any parse failure in the pagination planner (base fetch failure,
missing pagination markup, missing link or href, or a malformed page-number
parameter) yields the empty URL list instead of raising; when it is the
run's base page, the pipeline then either returns early or completes with
zero records. -/
theorem C8_parse_failure_is_nonfatal (fetch : Fetch) (burl : String)
    (bs : Nat) (log : List String)
    (hfail : paginationParseFails fetch burl) :
    (generate_model_page_urls_with_pagination fetch burl bs log).1 = [] ∧
    (burl = base_url →
      (runModel fetch).1 = RunOutcome.earlyReturn ∨
      (runModel fetch).1 = RunOutcome.completed []) := by
  refine ⟨gen_fail_empty fetch burl bs hfail log, ?_⟩
  intro hb
  subst hb
  rcases hfail with hnone | ⟨m, hm, hstruct⟩
  · left
    have hr : (get_or_cache_html fetch base_url ⟨[], []⟩).1 = none := by
      rw [get_or_cache_fresh, hnone]
    simp only [runModel, hr]
  · right
    have hr : (get_or_cache_html fetch base_url ⟨[], []⟩).1 = some m := by
      rw [get_or_cache_fresh, hm]
    have hgen := gen_fail_empty fetch base_url 50 (Or.inr ⟨m, hm, hstruct⟩)
    simp only [runModel, hr, hgen]
    simp [scrape_model_names, scrape_model_repositories, model_addresses,
      fetch_huggingface_model_urls, scrape_model_cards, scrape_github_links,
      scrape_category_tags, aggregate]

theorem C8_witness :
    paginationParseFails (fun _ => none) base_url ∧
    (generate_model_page_urls_with_pagination (fun _ => none) base_url 50
        []).1 = [] ∧
    ((runModel (fun _ => none)).1 = RunOutcome.earlyReturn ∨
      (runModel (fun _ => none)).1 = RunOutcome.completed []) :=
  have h := C8_parse_failure_is_nonfatal (fun _ => none) base_url 50 []
    (Or.inl rfl)
  ⟨Or.inl rfl, h.1, h.2 rfl⟩

/-! ## C10: the repository pass has no guard on its index -/

theorem splitAux_length (sep : Char) :
    ∀ (l acc : List Char), (splitAux sep l acc).length = l.count sep + 1 := by
  intro l
  induction l with
  | nil => intro acc; rfl
  | cons c cs ih =>
    intro acc
    by_cases hc : c = sep
    · simp [splitAux, hc, ih, List.count_cons]
    · simp [splitAux, hc, ih, List.count_cons]

theorem pySplit_length (sep : Char) (s : String) :
    (pySplit sep s).length = pyCount sep s + 1 := by
  simp [pySplit, splitAux_length, pyCount]

theorem repoOfHref_isSome_of_slash {href : String} (h : '/' ∈ href.data) :
    (repoOfHref href).isSome = true := by
  unfold repoOfHref
  have hlen : 1 < (pySplit '/' href).length := by
    rw [pySplit_length]
    have : 0 < pyCount '/' href := by
      unfold pyCount
      exact List.count_pos_iff.2 h
    omega
  rw [List.getElem?_eq_getElem hlen]
  rfl

theorem mapOption?_isSome {α β : Type} (f : α → Option β) :
    ∀ (xs : List α), (∀ x ∈ xs, (f x).isSome = true) →
      ∃ l, mapOption? f xs = some l ∧ l.length = xs.length := by
  intro xs
  induction xs with
  | nil => intro _; exact ⟨[], rfl, rfl⟩
  | cons a xs ih =>
    intro h
    obtain ⟨y, hy⟩ := Option.isSome_iff_exists.1 (h a (by simp))
    obtain ⟨l, hl, hlen⟩ := ih (fun x hx => h x (List.mem_cons_of_mem a hx))
    refine ⟨y :: l, ?_, by simp [hlen]⟩
    simp [mapOption?, hy, hl]

/-- Counterexample input for C10's raising half: a listing page containing
a model-link element whose href has no `/`. -/
def mC10 : Markup := ⟨[some "noslash"], [], [], none, ""⟩

/-- C10: `scrape_model_repositories` evaluates `split('/')[1]` with no
guard.  Under the precondition that every extracted href contains a `/`,
the pass completes with exactly one owner segment per href; but on a page
whose model-link href has no `/`, the index is out of range and the pass
raises (modelled as `none`) instead of skipping or substituting a
placeholder — unlike `scrape_model_names`, whose separator-count guard is
total on the same inputs. -/
theorem C10_repo_pass_unguarded (fetch : Fetch) (u : String) (st : St)
    (m : Markup)
    (hm : (get_or_cache_html fetch u st).1 = some m)
    (hslash : ∀ h ∈ hrefsOfBlockP2 m, '/' ∈ h.data) :
    ((scrape_model_repositories fetch [u] st).1.isSome = true ∧
      ((scrape_model_repositories fetch [u] st).1.getD []).length =
        (hrefsOfBlockP2 m).length) ∧
    (scrape_model_repositories (fun _ => some mC10)
        ["https://huggingface.co/models?p=0&sort=trending"] ⟨[], []⟩).1 =
      none := by
  refine ⟨?_, by decide⟩
  obtain ⟨l, hl, hlen⟩ := mapOption?_isSome repoOfHref (hrefsOfBlockP2 m)
    (fun x hx => repoOfHref_isSome_of_slash (hslash x hx))
  have hres : (scrape_model_repositories fetch [u] st).1 = some l := by
    simp [scrape_model_repositories, hm, hl]
  rw [hres]
  exact ⟨rfl, by simpa using hlen⟩

/-- Witness input for C10: a well-formed listing page. -/
def mC10w : Markup := ⟨[some "/octo/cat"], [], [], none, ""⟩

theorem C10_witness :
    (((fun _ => some mC10w : Fetch)
        "https://huggingface.co/models?p=0&sort=trending" = some mC10w) ∧
      (∀ h ∈ hrefsOfBlockP2 mC10w, '/' ∈ h.data)) ∧
    ((scrape_model_repositories (fun _ => some mC10w)
        ["https://huggingface.co/models?p=0&sort=trending"] ⟨[], []⟩).1.isSome
        = true ∧
      ((scrape_model_repositories (fun _ => some mC10w)
          ["https://huggingface.co/models?p=0&sort=trending"]
          ⟨[], []⟩).1.getD []).length = (hrefsOfBlockP2 mC10w).length) ∧
    (scrape_model_repositories (fun _ => some mC10)
        ["https://huggingface.co/models?p=0&sort=trending"] ⟨[], []⟩).1 =
      none :=
  ⟨⟨rfl, by decide⟩,
   C10_repo_pass_unguarded (fun _ => some mC10w)
     "https://huggingface.co/models?p=0&sort=trending" ⟨[], []⟩ mC10w rfl
     (by decide)⟩

/-! ## C3: tag categorization -/

/-- The claim's classification rules, written as the rule list of the spec
(prefix rules in the spec's order, which differs from the code's `elif`
order; the two orders agree because the prefixes are mutually exclusive). -/
def specCategoryOf (href : String) : Option String :=
  if strStarts "/models?pipeline_tag=" href then some "Task"
  else if strStarts "/models?library=" href then some "Library"
  else if strStarts "/models?language=" href then some "Language"
  else if strStarts "/models?license=license%3A" href then some "License"
  else if strStarts "/models?dataset=dataset%3A" href then some "Dataset"
  else if strStarts "/models?other=" href then
    if strIn "=arxiv%" href then some "Arxiv" else some "Others"
  else none

theorem prefix_excl {p₁ p₂ s : String}
    (h₁ : strStarts p₁ s = true) (h₂ : strStarts p₂ s = true)
    (hlen : p₁.data.length ≤ p₂.data.length)
    (hnp : ¬p₁.data <+: p₂.data) : False := by
  unfold strStarts at h₁ h₂
  have hp₁ : p₁.data <+: s.data := List.isPrefixOf_iff_prefix.1 h₁
  have hp₂ : p₂.data <+: s.data := List.isPrefixOf_iff_prefix.1 h₂
  exact hnp (List.prefix_of_prefix_length_le hp₁ hp₂ hlen)

theorem other_not_license {s : String}
    (h : strStarts "/models?other=" s = true) :
    strStarts "/models?license=license%3A" s = false := by
  cases hl : strStarts "/models?license=license%3A" s with
  | false => rfl
  | true => exact (prefix_excl h hl (by decide) (by decide)).elim

theorem other_not_dataset {s : String}
    (h : strStarts "/models?other=" s = true) :
    strStarts "/models?dataset=dataset%3A" s = false := by
  cases hl : strStarts "/models?dataset=dataset%3A" s with
  | false => rfl
  | true => exact (prefix_excl h hl (by decide) (by decide)).elim

theorem classify_eq_spec (href : String) :
    classifyHref href = specCategoryOf href := by
  unfold classifyHref specCategoryOf
  by_cases h1 : strStarts "/models?pipeline_tag=" href = true
  · simp [h1]
  · simp only [Bool.not_eq_true] at h1
    by_cases h2 : strStarts "/models?library=" href = true
    · simp [h1, h2]
    · simp only [Bool.not_eq_true] at h2
      by_cases h3 : strStarts "/models?language=" href = true
      · simp [h1, h2, h3]
      · simp only [Bool.not_eq_true] at h3
        by_cases h4 : strStarts "/models?other=" href = true
        · simp [h1, h2, h3, h4, other_not_license h4, other_not_dataset h4]
        · simp only [Bool.not_eq_true] at h4
          simp [h1, h2, h3, h4]

theorem addTag_keys (cats : CatDict) (heading t : String) :
    (addTag cats heading t).map Prod.fst = cats.map Prod.fst := by
  simp only [addTag, List.map_map]
  apply List.map_congr_left
  intro p _
  by_cases hp : p.1 = heading <;> simp [hp]

theorem catStep_keys (cats : CatDict) (a : ATag) :
    (catStep cats a).map Prod.fst = cats.map Prod.fst := by
  unfold catStep
  cases classifyHref (a.href.getD "") with
  | none => rfl
  | some heading => exact addTag_keys cats heading _

theorem foldl_catStep_keys :
    ∀ (l : List ATag) (cats : CatDict),
      (l.foldl catStep cats).map Prod.fst = cats.map Prod.fst := by
  intro l
  induction l with
  | nil => intro cats; rfl
  | cons a l ih =>
    intro cats
    rw [List.foldl_cons, ih, catStep_keys]

theorem alookup_addTag (cats : CatDict) (heading t c : String) :
    alookup (addTag cats heading t) c =
      if c = heading then (alookup cats c).map (fun v => v ++ [t])
      else alookup cats c := by
  induction cats with
  | nil =>
    simp only [addTag, List.map_nil, alookup]
    split <;> rfl
  | cons p rest ih =>
    rcases p with ⟨k, v⟩
    show alookup ((if k = heading then (k, v ++ [t]) else (k, v)) ::
        addTag rest heading t) c = _
    by_cases hk : k = heading
    · rw [if_pos hk]
      by_cases hkc : k = c
      · have hch : c = heading := by rw [← hkc, hk]
        simp [alookup, hkc, hch]
      · simp only [alookup, if_neg hkc]
        rw [ih]
    · rw [if_neg hk]
      by_cases hkc : k = c
      · have hch : ¬c = heading := by rw [← hkc]; exact hk
        simp [alookup, hkc, hch]
      · simp only [alookup, if_neg hkc]
        rw [ih]

/-- The contribution of one anchor to category `c`, per the (amended)
spec rules. -/
def specTagEntry (c : String) (a : ATag) : Option String :=
  if specCategoryOf (a.href.getD "") = some c
  then some (tagTextOf c a.text) else none

theorem foldl_catStep_alookup :
    ∀ (l : List ATag) (cats : CatDict) (c : String),
      alookup (l.foldl catStep cats) c =
        (alookup cats c).map (fun v => v ++ l.filterMap (specTagEntry c)) := by
  intro l
  induction l with
  | nil =>
    intro cats c
    cases h : alookup cats c <;> simp [h]
  | cons a l ih =>
    intro cats c
    rw [List.foldl_cons, ih]
    rcases hcl : classifyHref (a.href.getD "") with _ | heading
    · have hstep : catStep cats a = cats := by simp [catStep, hcl]
      have hentry : specTagEntry c a = none := by
        unfold specTagEntry
        rw [← classify_eq_spec, hcl, if_neg (fun e => Option.noConfusion e)]
      simp [hstep, hentry]
    · have hstep : catStep cats a =
          addTag cats heading (tagTextOf heading a.text) := by
        simp [catStep, hcl]
      rw [hstep, alookup_addTag]
      by_cases hc : c = heading
      · subst hc
        have hentry : specTagEntry c a = some (tagTextOf c a.text) := by
          unfold specTagEntry
          rw [← classify_eq_spec, hcl, if_pos rfl]
        rw [if_pos rfl]
        cases h : alookup cats c <;> simp [h, hentry]
      · have hentry : specTagEntry c a = none := by
          unfold specTagEntry
          rw [← classify_eq_spec, hcl,
            if_neg (fun e => hc (Option.some.inj e).symm)]
        rw [if_neg hc]
        cases h : alookup cats c <;> simp [h, hentry]

/-- The seven category keys in the code's dict-literal order. -/
def catKeys : List String :=
  ["Task", "Library", "Language", "Others", "Arxiv", "License", "Dataset"]

/-- C3 (amended): `scrape_category_tags` always produces a mapping with
exactly the seven category keys, and each category's sequence is exactly
the document-order list of cleaned tag texts of the anchors classified
into it by the href-prefix rules — where for License the code removes
EVERY occurrence of `License: ` from the tag text, not only a leading
label. -/
theorem C3_category_tags (fetch : Fetch) (u : String) (st : St) (m : Markup)
    (hm : (get_or_cache_html fetch u st).1 = some m) :
    (scrape_category_tags fetch [u] st).1 = [catsOfMarkup m] ∧
    (catsOfMarkup m).map Prod.fst = catKeys ∧
    ∀ c ∈ catKeys,
      alookup (catsOfMarkup m) c =
        some (m.anchors.filterMap (specTagEntry c)) := by
  refine ⟨by simp [scrape_category_tags, hm], ?_, ?_⟩
  · exact foldl_catStep_keys m.anchors initCats
  · intro c hc
    have hinit : alookup initCats c = some [] := by
      have : c = "Task" ∨ c = "Library" ∨ c = "Language" ∨ c = "Others" ∨
          c = "Arxiv" ∨ c = "License" ∨ c = "Dataset" := by
        simpa [catKeys] using hc
      rcases this with rfl | rfl | rfl | rfl | rfl | rfl | rfl <;> rfl
    unfold catsOfMarkup
    rw [foldl_catStep_alookup, hinit]
    simp

/-- Counterexample input for C3 as stated: a License anchor whose text has
the label `License: ` in a non-leading position. -/
def mC3 : Markup :=
  ⟨[], [⟨some "/models?license=license%3Amit", "MIT License: v2"⟩], [],
   none, ""⟩

/-- The claim's stated License cleaning: strip a LEADING `License: `
label only. -/
def stripLeadingLicense (t : String) : String :=
  if strStarts "License: " t then ⟨t.data.drop "License: ".data.length⟩
  else t

theorem C3_counterexample :
    alookup (catsOfMarkup mC3) "License" = some ["MIT v2"] ∧
    stripLeadingLicense (removeNewlines (pyStrip "MIT License: v2")) =
      "MIT License: v2" ∧
    ("MIT v2" : String) ≠ "MIT License: v2" :=
  ⟨by decide, by decide, by decide⟩

/-- Witness inputs for C3: a page with one anchor per interesting rule. -/
def mC3w : Markup :=
  ⟨[],
   [⟨some "/models?pipeline_tag=text-generation", " Text Generation "⟩,
    ⟨some "/models?other=arxiv%3A1234", "arxiv:1234"⟩,
    ⟨some "/models?other=misc", "misc"⟩,
    ⟨some "/whatever", "skip me"⟩,
    ⟨none, "no href"⟩],
   [], none, ""⟩

theorem C3_witness :
    ((get_or_cache_html (fun _ => some mC3w) "https://huggingface.co/x/y"
        ⟨[], []⟩).1 = some mC3w) ∧
    (scrape_category_tags (fun _ => some mC3w) ["https://huggingface.co/x/y"]
        ⟨[], []⟩).1 = [catsOfMarkup mC3w] ∧
    (catsOfMarkup mC3w).map Prod.fst = catKeys ∧
    alookup (catsOfMarkup mC3w) "Arxiv" =
      some (mC3w.anchors.filterMap (specTagEntry "Arxiv")) :=
  have h := C3_category_tags (fun _ => some mC3w) "https://huggingface.co/x/y"
    ⟨[], []⟩ mC3w rfl
  ⟨rfl, h.1, h.2.1, h.2.2 "Arxiv" (by decide)⟩

/-! ## C4: positional aggregation -/

theorem getElem?_zip' {α β : Type} :
    ∀ (l₁ : List α) (l₂ : List β) (j : Nat),
      (l₁.zip l₂)[j]? = l₁[j]?.bind (fun a => l₂[j]?.map (Prod.mk a)) := by
  intro l₁
  induction l₁ with
  | nil => intro l₂ j; simp
  | cons a l₁ ih =>
    intro l₂ j
    cases l₂ with
    | nil =>
      cases hj : (a :: l₁)[j]? <;> simp [hj]
    | cons b l₂ =>
      cases j with
      | zero => simp
      | succ j => simp [ih]

theorem getElem?_eq_some_getD {α : Type} (l : List α) (j : Nat) (d : α)
    (h : j < l.length) : l[j]? = some (l.getD j d) := by
  rw [List.getElem?_eq_getElem h, List.getD_eq_getElem l d h]

/-- C4: the aggregation of lines 572-583 zips the per-field sequences
positionally.  Given aligned inputs of common length `K` it yields exactly
`K` rows whose `index` column is the contiguous sequence `1..K`, the `j`-th
row holding the `j`-th entry of each per-field sequence in the fixed column
order of `Row`; and for arbitrary (possibly mismatched) inputs the row
count is the minimum of the input lengths — silent truncation, never
re-alignment. -/
theorem C4_aggregation (model_names model_repo model_address model_url :
    List String) (cats : List CatDict) (gh cards : List String) (K : Nat)
    (h1 : model_names.length = K) (h2 : model_repo.length = K)
    (h3 : model_address.length = K) (h4 : model_url.length = K)
    (h5 : cats.length = K) (h6 : gh.length = K) (h7 : cards.length = K) :
    (aggregate model_names model_repo model_address model_url cats gh
      cards).length = K ∧
    (aggregate model_names model_repo model_address model_url cats gh
      cards).map Row.idx = List.range' 1 K ∧
    (∀ j, j < K →
      (aggregate model_names model_repo model_address model_url cats gh
        cards)[j]? =
        some ⟨j + 1, model_names.getD j "", model_repo.getD j "",
          model_address.getD j "", model_url.getD j "",
          catJoin (cats.getD j []) "Task", catJoin (cats.getD j []) "Library",
          catJoin (cats.getD j []) "Dataset",
          catJoin (cats.getD j []) "Language",
          catJoin (cats.getD j []) "Others", catJoin (cats.getD j []) "Arxiv",
          catJoin (cats.getD j []) "License", gh.getD j "",
          cards.getD j ""⟩) ∧
    (∀ (ns rs ads us : List String) (cs : List CatDict) (gs ds : List String),
      (aggregate ns rs ads us cs gs ds).length =
        min ns.length (min rs.length (min ads.length (min us.length
          (min cs.length (min gs.length ds.length)))))) := by
  have hminlen : ∀ (ns rs ads us : List String) (cs : List CatDict)
      (gs ds : List String),
      (aggregate ns rs ads us cs gs ds).length =
        min ns.length (min rs.length (min ads.length (min us.length
          (min cs.length (min gs.length ds.length))))) := by
    intro ns rs ads us cs gs ds
    simp only [aggregate, List.length_map, List.length_zip,
      List.length_range']
    omega
  have hlen : (aggregate model_names model_repo model_address model_url cats
      gh cards).length = K := by
    rw [hminlen, h1, h2, h3, h4, h5, h6, h7]
    omega
  have hchar : ∀ j, j < K →
      (aggregate model_names model_repo model_address model_url cats gh
        cards)[j]? =
        some ⟨j + 1, model_names.getD j "", model_repo.getD j "",
          model_address.getD j "", model_url.getD j "",
          catJoin (cats.getD j []) "Task", catJoin (cats.getD j []) "Library",
          catJoin (cats.getD j []) "Dataset",
          catJoin (cats.getD j []) "Language",
          catJoin (cats.getD j []) "Others", catJoin (cats.getD j []) "Arxiv",
          catJoin (cats.getD j []) "License", gh.getD j "",
          cards.getD j ""⟩ := by
    intro j hj
    have hn := getElem?_eq_some_getD model_names j "" (by omega)
    have hr := getElem?_eq_some_getD model_repo j "" (by omega)
    have had := getElem?_eq_some_getD model_address j "" (by omega)
    have hu := getElem?_eq_some_getD model_url j "" (by omega)
    have hc := getElem?_eq_some_getD cats j [] (by omega)
    have hg := getElem?_eq_some_getD gh j "" (by omega)
    have hd := getElem?_eq_some_getD cards j "" (by omega)
    have hi : (List.range' 1 model_names.length)[j]? = some (1 + j) := by
      have := List.getElem?_range' 1 1 (m := j) (n := model_names.length)
        (by omega)
      simpa using this
    simp only [aggregate, List.getElem?_map, getElem?_zip', hn, hr, had, hu,
      hc, hg, hd, hi]
    simp [Nat.add_comm 1 j]
  refine ⟨hlen, ?_, hchar, hminlen⟩
  apply List.ext_getElem?
  intro j
  by_cases hj : j < K
  · rw [List.getElem?_map, hchar j hj,
      List.getElem?_range' 1 1 (m := j) (n := K) hj]
    simp [Nat.add_comm 1 j]
  · rw [List.getElem?_eq_none (by simp [hlen]; omega),
      List.getElem?_eq_none (by simp [List.length_range']; omega)]

/-- Witness inputs for C4. -/
def aggC4 : List Row :=
  aggregate ["m1", "m2"] ["a", "b"] ["/a/m1", "/b/m2"] ["u1", "u2"]
    [initCats, initCats] ["g1", "g2"] ["d1", "d2"]

theorem C4_witness :
    aggC4.length = 2 ∧
    aggC4.map Row.idx = List.range' 1 2 ∧
    aggC4[0]? = some ⟨1, "m1", "a", "/a/m1", "u1", "", "", "", "", "", "",
      "", "g1", "d1"⟩ :=
  have h := C4_aggregation ["m1", "m2"] ["a", "b"] ["/a/m1", "/b/m2"]
    ["u1", "u2"] [initCats, initCats] ["g1", "g2"] ["d1", "d2"] 2
    rfl rfl rfl rfl rfl rfl rfl
  ⟨h.1, h.2.1, by rw [show aggC4 = aggregate ["m1", "m2"] ["a", "b"]
      ["/a/m1", "/b/m2"] ["u1", "u2"] [initCats, initCats] ["g1", "g2"]
      ["d1", "d2"] from rfl, h.2.2.1 0 (by decide)]; decide⟩

/-! ## C7: caching and the run's fetch log -/

/-- `st'` is a cache-respecting extension of `st`: the cache only gains
keys, and the log grows by a duplicate-free block of URLs none of which
were cached in `st` and all of which are cached in `st'`.  Every scraping
pass transforms its threaded state this way. -/
structure StExt (st st' : St) : Prop where
  mono : ∀ u : String, (alookup st.cache u).isSome = true →
    (alookup st'.cache u).isSome = true
  log_ext : ∃ t, st'.log = st.log ++ t ∧ t.Nodup ∧
    ∀ u ∈ t, alookup st.cache u = none ∧ (alookup st'.cache u).isSome = true

theorem StExt.selfExt (st : St) : StExt st st :=
  ⟨fun _ h => h, ⟨[], by simp, List.nodup_nil, by simp⟩⟩

theorem StExt.comp {s₁ s₂ s₃ : St} (a : StExt s₁ s₂) (b : StExt s₂ s₃) :
    StExt s₁ s₃ := by
  obtain ⟨t₁, e₁, n₁, p₁⟩ := a.log_ext
  obtain ⟨t₂, e₂, n₂, p₂⟩ := b.log_ext
  refine ⟨fun u h => b.mono u (a.mono u h),
    ⟨t₁ ++ t₂, by rw [e₂, e₁, List.append_assoc], ?_, ?_⟩⟩
  · rw [List.nodup_append]
    refine ⟨n₁, n₂, fun u hu₁ hu₂ => ?_⟩
    have h₁ := (p₁ u hu₁).2
    have h₂ := (p₂ u hu₂).1
    rw [h₂] at h₁
    exact absurd h₁ (by simp)
  · intro u hu
    rcases List.mem_append.1 hu with h | h
    · exact ⟨(p₁ u h).1, b.mono u (p₁ u h).2⟩
    · refine ⟨?_, (p₂ u h).2⟩
      cases hs : alookup s₁.cache u with
      | none => rfl
      | some v =>
        have hm := a.mono u (by simp [hs])
        have hn := (p₂ u h).1
        rw [hn] at hm
        exact absurd hm (by simp)

theorem StExt.get_or_cache (fetch : Fetch) (u : String) (st : St) :
    StExt st (get_or_cache_html fetch u st).2 := by
  unfold get_or_cache_html
  cases h : alookup st.cache u with
  | some v => exact StExt.selfExt st
  | none =>
    refine ⟨?_, ⟨[u], rfl, by simp, ?_⟩⟩
    · intro w hw
      by_cases huw : u = w
      · simp [alookup, huw]
      · simpa [alookup, huw] using hw
    · intro w hw
      simp only [List.mem_singleton] at hw
      subst hw
      exact ⟨h, by simp [alookup]⟩

theorem StExt.names (fetch : Fetch) :
    ∀ (urls : List String) (st : St),
      StExt st (scrape_model_names fetch urls st).2 := by
  intro urls
  induction urls with
  | nil => intro st; exact StExt.selfExt st
  | cons u rest ih =>
    intro st
    exact StExt.comp (StExt.get_or_cache fetch u st)
      (ih (get_or_cache_html fetch u st).2)

theorem StExt.addresses (fetch : Fetch) :
    ∀ (urls : List String) (st : St),
      StExt st (model_addresses fetch urls st).2 := by
  intro urls
  induction urls with
  | nil => intro st; exact StExt.selfExt st
  | cons u rest ih =>
    intro st
    exact StExt.comp (StExt.get_or_cache fetch u st)
      (ih (get_or_cache_html fetch u st).2)

theorem StExt.modelUrls (fetch : Fetch) :
    ∀ (urls : List String) (st : St),
      StExt st (fetch_huggingface_model_urls fetch urls st).2 := by
  intro urls
  induction urls with
  | nil => intro st; exact StExt.selfExt st
  | cons u rest ih =>
    intro st
    exact StExt.comp (StExt.get_or_cache fetch u st)
      (ih (get_or_cache_html fetch u st).2)

theorem StExt.cards (fetch : Fetch) :
    ∀ (urls : List String) (st : St),
      StExt st (scrape_model_cards fetch urls st).2 := by
  intro urls
  induction urls with
  | nil => intro st; exact StExt.selfExt st
  | cons u rest ih =>
    intro st
    exact StExt.comp (StExt.get_or_cache fetch u st)
      (ih (get_or_cache_html fetch u st).2)

theorem StExt.github (fetch : Fetch) :
    ∀ (urls : List String) (st : St),
      StExt st (scrape_github_links fetch urls st).2 := by
  intro urls
  induction urls with
  | nil => intro st; exact StExt.selfExt st
  | cons u rest ih =>
    intro st
    exact StExt.comp (StExt.get_or_cache fetch u st)
      (ih (get_or_cache_html fetch u st).2)

theorem StExt.tags (fetch : Fetch) :
    ∀ (urls : List String) (st : St),
      StExt st (scrape_category_tags fetch urls st).2 := by
  intro urls
  induction urls with
  | nil => intro st; exact StExt.selfExt st
  | cons u rest ih =>
    intro st
    exact StExt.comp (StExt.get_or_cache fetch u st)
      (ih (get_or_cache_html fetch u st).2)

theorem StExt.repos (fetch : Fetch) :
    ∀ (urls : List String) (st : St),
      StExt st (scrape_model_repositories fetch urls st).2 := by
  intro urls
  induction urls with
  | nil => intro st; exact StExt.selfExt st
  | cons u rest ih =>
    intro st
    have h₁ := StExt.get_or_cache fetch u st
    have h₂ := ih (get_or_cache_html fetch u st).2
    rcases hr : (get_or_cache_html fetch u st).1 with _ | m
    · have hs : (scrape_model_repositories fetch (u :: rest) st).2 =
          (scrape_model_repositories fetch rest
            (get_or_cache_html fetch u st).2).2 := by
        simp only [scrape_model_repositories, hr]
      rw [hs]
      exact StExt.comp h₁ h₂
    · rcases hmo : mapOption? repoOfHref (hrefsOfBlockP2 m) with _ | here
      · have hs : (scrape_model_repositories fetch (u :: rest) st).2 =
            (get_or_cache_html fetch u st).2 := by
          simp only [scrape_model_repositories, hr, hmo]
        rw [hs]
        exact h₁
      · have hs : (scrape_model_repositories fetch (u :: rest) st).2 =
            (scrape_model_repositories fetch rest
              (get_or_cache_html fetch u st).2).2 := by
          simp only [scrape_model_repositories, hr, hmo]
        rw [hs]
        exact StExt.comp h₁ h₂

theorem gen_log (fetch : Fetch) (burl : String) (bs : Nat)
    (log : List String) :
    (generate_model_page_urls_with_pagination fetch burl bs log).2 =
      log ++ [burl] :=
  rfl

/-- Counting helper: from a state whose log is exactly two copies of the
base URL and whose cache contains the base URL, any extension's log counts
the base URL at most twice and every other URL at most once. -/
theorem count_le_of_ext {st₂ stF : St} (h : StExt st₂ stF) (u : String)
    (hbase : (alookup st₂.cache base_url).isSome = true)
    (hlog : st₂.log = [base_url, base_url]) :
    stF.log.count u ≤ if u = base_url then 2 else 1 := by
  obtain ⟨t, ht, hn, hp⟩ := h.log_ext
  rw [ht, hlog, List.count_append]
  by_cases hu : u = base_url
  · have hnot : u ∉ t := fun hm => by
      have h₁ := (hp u hm).1
      rw [hu] at h₁
      rw [h₁] at hbase
      exact absurd hbase (by simp)
    rw [if_pos hu, List.count_eq_zero_of_not_mem hnot, hu]
    decide
  · rw [if_neg hu]
    have h₂ : List.count u [base_url, base_url] = 0 :=
      List.count_eq_zero_of_not_mem (by simp [hu])
    rw [h₂]
    simpa using List.nodup_iff_count_le_one.1 hn u

/-- C7 (amended): every markup retrieval goes through a cache and a cache
hit never re-invokes the fetch collaborator, so across the shared-cache
stages of one run no URL is ever fetched twice; but because the pagination
planner uses a fresh empty dict (line 147) instead of the run's cache, the
base listing URL itself is fetched up to twice per run.  Hence in any run
the fetch log counts the base URL at most 2 times and every other URL at
most once. -/
theorem C7_fetch_log_bound (fetch : Fetch) (u : String) :
    ((runModel fetch).2.log).count u ≤ if u = base_url then 2 else 1 := by
  have hst : (get_or_cache_html fetch base_url ⟨[], []⟩).2 =
      ⟨[(base_url, fetch base_url)], [base_url]⟩ := rfl
  cases hb : (get_or_cache_html fetch base_url ⟨[], []⟩).1 with
  | none =>
    simp only [runModel, hb, hst]
    by_cases hu : u = base_url
    · subst hu; simp
    · rw [if_neg hu]
      exact le_trans (List.count_le_length u [base_url]) (by simp)
  | some m =>
    have hbase : (alookup (⟨[(base_url, fetch base_url)],
        [base_url, base_url]⟩ : St).cache base_url).isSome = true := by
      simp [alookup]
    simp only [runModel, hb, hst, gen_log, List.singleton_append]
    have e₁ := StExt.names fetch
      (generate_model_page_urls_with_pagination fetch base_url 50
        [base_url]).1
      ⟨[(base_url, fetch base_url)], [base_url, base_url]⟩
    have e₂ := StExt.repos fetch
      (generate_model_page_urls_with_pagination fetch base_url 50
        [base_url]).1
      (scrape_model_names fetch
        (generate_model_page_urls_with_pagination fetch base_url 50
          [base_url]).1
        ⟨[(base_url, fetch base_url)], [base_url, base_url]⟩).2
    cases hrep : (scrape_model_repositories fetch
        (generate_model_page_urls_with_pagination fetch base_url 50
          [base_url]).1
        (scrape_model_names fetch
          (generate_model_page_urls_with_pagination fetch base_url 50
            [base_url]).1
          ⟨[(base_url, fetch base_url)], [base_url, base_url]⟩).2).1 with
    | none =>
      exact count_le_of_ext (StExt.comp e₁ e₂) u hbase rfl
    | some model_repo =>
      exact count_le_of_ext (StExt.comp e₁ (StExt.comp e₂
        (StExt.comp (StExt.addresses fetch _ _)
          (StExt.comp (StExt.modelUrls fetch _ _)
            (StExt.comp (StExt.cards fetch _ _)
              (StExt.comp (StExt.github fetch _ _)
                (StExt.tags fetch _ _))))))) u hbase rfl

/-- The fetch collaborator of the C7 counterexample: the base page is
reachable (with no pagination markup), everything else fails. -/
def fetchC7 : Fetch :=
  fun u => if u = base_url then some ⟨[], [], [], none, ""⟩ else none

theorem C7_counterexample :
    ((runModel fetchC7).2.log).count base_url = 2 := by decide

end HF
